import Mathlib

/-!
# Verification of the Rural Road Editing Progress Tracker core

Shallow embedding of the state model of `src/Roads_Progress.py`:
the completion store (`load_completed` / `save_completed`), the
reconciler (`determine_status`), the assignment-override layer of
`load_shapefile` and the reassignment handler, and the summary /
overall progress statistics.

Modelling conventions, faithful to the Python/pandas behaviour:

* A CSV cell is `Option String`; `none` models a pandas `NaN`
  (a missing or empty field: `pd.read_csv` turns an empty field
  into `NaN`).  `str(...)` applied to a cell is `pyStr`, and in
  particular `str(nan) = "nan"`.
* A backing file is `Option (List CsvRow)`; `none` means the file
  does not exist on disk.  The header row written by
  `save_completed` and consumed by `pd.read_csv` is abstracted
  away: a file value holds the data rows only.
* `csv.writer` writes a string verbatim; an empty string becomes an
  empty field, which reads back as `NaN`.  This write/read step is
  `writeCell`.
* Python dictionaries iterate in insertion order; they are embedded
  as association lists in insertion order with unique keys, updated
  in place (`setUpdate`, `addCompleted`, `dictInsert`).  Python
  `set` iteration order is implementation defined; it is embedded
  as first-insertion order with membership deduplication (`pySet`),
  which fixes one admissible order.
* Python `round(x, 1)` is embedded as exact rational rounding to
  one decimal with round-half-to-even (`pyRound1`); the binary
  floating point artefacts of CPython are out of scope and no
  statement below depends on a tie.
* A Python `ZeroDivisionError` is embedded as `none` in an
  `Option`-valued result (`pyDivQ`).
-/

namespace RoadsProgress

/-! ## Cells and files -/

/-- A CSV cell as seen through pandas: `none` is `NaN`. -/
abbrev Cell := Option String

/-- One data row of a two-column CSV file. -/
abbrev CsvRow := Cell × Cell

/-- A backing file: `none` when the file does not exist. -/
abbrev CsvFile := Option (List CsvRow)

/-- Python `str(...)` on a cell: `str(nan)` is the string `"nan"`. -/
def pyStr : Cell → String
  | none => "nan"
  | some s => s

/-- Characters removed by Python `str.strip()` (ASCII whitespace). -/
def pySpace (c : Char) : Bool :=
  c == ' ' || c == '\t' || c == '\n' || c == '\r' || c == '\x0b' || c == '\x0c'

/-- Strip leading and trailing whitespace from a character list. -/
def trimChars (l : List Char) : List Char :=
  ((l.dropWhile pySpace).reverse.dropWhile pySpace).reverse

/-- Python `str.strip()`. -/
def pyStrip (s : String) : String :=
  String.mk (trimChars s.data)

/-- Writing a string with `csv.writer` and reading it back with
`pd.read_csv`: an empty string is written as an empty field, which
reads back as `NaN`. -/
def writeCell (s : String) : Cell :=
  if s = "" then none else some s

/-! ## Completion store (`load_completed`, `save_completed`) -/

/-- The in-memory completion mapping `editor -> set of suburbs`:
an insertion-ordered association list with unique keys; each value
list is in set-insertion order without duplicates. -/
abbrev CompletedMap := List (String × List String)

/-- The editor field of a row, as computed by `load_completed`:
`str(row["Editor"]).strip()`. -/
def rowEditor (r : CsvRow) : String := pyStrip (pyStr r.1)

/-- The suburb field of a row, as computed by `load_completed`:
`str(row["Suburb"]).strip()`. -/
def rowSuburb (r : CsvRow) : String := pyStrip (pyStr r.2)

/-- The `if editor and suburb:` guard of `load_completed`
(Python string truthiness: nonempty). -/
def validRow (r : CsvRow) : Bool :=
  !(rowEditor r == "") && !(rowSuburb r == "")

/-- `completed.setdefault(editor, set()).add(suburb)`: update the
editor's entry in place, or append a fresh entry at the end
(Python dict insertion order). -/
def addCompleted (m : CompletedMap) (ed sub : String) : CompletedMap :=
  if m.any (fun p => p.1 == ed) then
    m.map (fun p => if p.1 == ed then (p.1, if sub ∈ p.2 then p.2 else p.2 ++ [sub]) else p)
  else
    m ++ [(ed, [sub])]

/-- The row loop of `load_completed` over the data rows. -/
def buildCompleted : List CsvRow → CompletedMap → CompletedMap
  | [], m => m
  | r :: rs, m =>
      buildCompleted rs (if validRow r then addCompleted m (rowEditor r) (rowSuburb r) else m)

/-- `load_completed()`: empty mapping when the file does not exist,
otherwise fold the rows through the guard into the mapping. -/
def load_completed : CsvFile → CompletedMap
  | none => []
  | some rows => buildCompleted rows []

/-- Python `set(...)` applied to a list of strings: deduplicate,
keeping first-insertion order as the fixed iteration order. -/
def pySet (l : List String) : List String :=
  l.foldl (fun acc s => if s ∈ acc then acc else acc ++ [s]) []

/-- `completed[editor] = ...`: replace the value in place when the
key exists, otherwise append the new key at the end. -/
def setUpdate (m : CompletedMap) (ed : String) (subs : List String) : CompletedMap :=
  if m.any (fun p => p.1 == ed) then
    m.map (fun p => if p.1 == ed then (p.1, subs) else p)
  else
    m ++ [(ed, subs)]

/-- The writer loop of `save_completed`: one row per
(editor, suburb) pair, in mapping order. -/
def writeRows (m : CompletedMap) : List CsvRow :=
  m.flatMap (fun p => p.2.map (fun s => (writeCell p.1, writeCell s)))

/-- `save_completed(editor, suburbs_selected)`: reload the full
mapping, replace this editor's entry with `set(suburbs_selected)`,
rewrite the whole file. -/
def save_completed (f : CsvFile) (editor : String) (suburbs_selected : List String) : CsvFile :=
  some (writeRows (setUpdate (load_completed f) editor (pySet suburbs_selected)))

/-! ## Reconciler (`determine_status`) -/

/-- `determine_status`: iterate the completion mapping in dict
insertion order; the first editor whose set contains the suburb
wins; otherwise `("Not Started", None)`. -/
def determine_status (m : CompletedMap) (suburb : String) : String × Option String :=
  match m with
  | [] => ("Not Started", none)
  | p :: rest => if suburb ∈ p.2 then ("Complete", some p.1) else determine_status rest suburb

/-! ## Statistics (`summary_data` loop, overall stats) -/

/-- Python division on rationals: `ZeroDivisionError` is `none`. -/
def pyDivQ (a b : ℚ) : Option ℚ :=
  if b = 0 then none else some (a / b)

/-- Round-half-to-even to the nearest integer, on exact rationals. -/
def roundHalfEven (q : ℚ) : ℤ :=
  let f := ⌊q⌋
  let r := q - f
  if r < 1/2 then f
  else if 1/2 < r then f + 1
  else if f % 2 = 0 then f else f + 1

/-- Python `round(x, 1)` modelled on exact rationals. -/
def pyRound1 (q : ℚ) : ℚ :=
  (roundHalfEven (q * 10) : ℚ) / 10

/-- A roster record as the statistics loops see it:
(`SUBURB`, `Assigned`); the `Assigned` cell may be missing. -/
abbrev RosterRecord := String × Cell

/-- The per-row status computed by `gdf.apply(determine_status)`:
the first component of the pair, compared with `"Complete"`. -/
def isComplete (m : CompletedMap) (name : String) : Bool :=
  (determine_status m name).1 == "Complete"

/-- `gdf[gdf["Assigned"] == ed]`: the records assigned to an editor. -/
def assignedTo (records : List RosterRecord) (ed : String) : List RosterRecord :=
  records.filter (fun r => r.2 == some ed)

/-- `len(ed_gdf[ed_gdf["status"] == "Complete"])` for one editor. -/
def completedCount (records : List RosterRecord) (m : CompletedMap) (ed : String) : Nat :=
  ((assignedTo records ed).filter (fun r => isComplete m r.1)).length

/-- The per-editor progress percentage of the summary loop:
guarded by `if total_assigned > 0`, else the literal `0`. -/
def summaryProg (records : List RosterRecord) (m : CompletedMap) (ed : String) : Option ℚ :=
  let total := (assignedTo records ed).length
  if 0 < total then
    (pyDivQ (completedCount records m ed) total).map (fun q => pyRound1 (q * 100))
  else some 0

/-- `len(gdf[gdf["status"] == "Complete"])`. -/
def doneAll (records : List RosterRecord) (m : CompletedMap) : Nat :=
  (records.filter (fun r => isComplete m r.1)).length

/-- The overall statistic `round((done_all/total_all)*100, 1)`:
written with no guard on `total_all`. -/
def overallMetric (records : List RosterRecord) (m : CompletedMap) : Option ℚ :=
  (pyDivQ (doneAll records m) records.length).map (fun q => pyRound1 (q * 100))

/-! ## Roster store: overrides (`load_shapefile`) and reassignment -/

/-- One row of the assignments file: (`SUBURB`, `Assigned`) cells. -/
abbrev OvRow := Cell × Cell

/-- Python dict assignment `d[k] = v`: overwrite in place when the
key exists, else append (insertion order). -/
def dictInsert (d : List (Cell × Cell)) (k v : Cell) : List (Cell × Cell) :=
  if d.any (fun p => p.1 == k) then
    d.map (fun p => if p.1 == k then (p.1, v) else p)
  else
    d ++ [(k, v)]

/-- `dict(zip(overrides["SUBURB"], overrides["Assigned"]))`:
last value wins for a duplicated key. -/
def dictOfZip (rows : List OvRow) : List (Cell × Cell) :=
  rows.foldl (fun d r => dictInsert d r.1 r.2) []

/-- Python dict lookup, `none` when the key is absent. -/
def dictLookup (d : List (Cell × Cell)) (k : Cell) : Option Cell :=
  (d.find? (fun p => p.1 == k)).map (fun p => p.2)

/-- The override application of `load_shapefile`:
`gdf["Assigned"] = gdf["SUBURB"].map(mapping).fillna(gdf["Assigned"])`.
A suburb mapped to a present value takes it; a suburb not in the
mapping, or mapped to `NaN`, keeps its original `Assigned` cell. -/
def applyOverrides (records : List RosterRecord) (rows : List OvRow) : List RosterRecord :=
  let mapping := dictOfZip rows
  records.map (fun r =>
    match dictLookup mapping (some r.1) with
    | some (some v) => (r.1, some v)
    | some none => r
    | none => r)

/-- The Confirm Reassignment handler: read the override table (or
an empty one), then either rewrite the `Assigned` cell of every row
whose `SUBURB` equals the chosen suburb, or append one new row. -/
def reassign (rows : List OvRow) (sub owner : String) : List OvRow :=
  if rows.any (fun r => r.1 == some sub) then
    rows.map (fun r => if r.1 == some sub then (r.1, some owner) else r)
  else
    rows ++ [(some sub, some owner)]

/-! ## Specification-side definitions (from the claims' wording) -/

/-- Editors of a completion file in order of their first valid row,
as the claims describe the dict insertion order of `load_completed`. -/
def editorsByFirstRow (rows : List CsvRow) : List String :=
  rows.foldl (fun acc r =>
    if validRow r && !(acc.contains (rowEditor r)) then acc ++ [rowEditor r] else acc) []

/-- Some valid row of the file marks `s` complete for editor `e`. -/
def completesIn (rows : List CsvRow) (e s : String) : Bool :=
  rows.any (fun r => validRow r && rowEditor r == e && rowSuburb r == s)

/-- The owning editor the claims describe: the first editor, in
order of earliest first row, with a valid row completing `s`. -/
def fileOwner (rows : List CsvRow) (s : String) : Option String :=
  (editorsByFirstRow rows).find? (fun e => completesIn rows e s)

/-! ## Lemmas about stripping -/

theorem data_mk (l : List Char) : (String.mk l).data = l := rfl

theorem trimChars_eq_rdrop (l : List Char) :
    trimChars l = List.rdropWhile pySpace (List.dropWhile pySpace l) := rfl

theorem false_of_dropWhile_eq_cons {p : Char → Bool} {l r : List Char} {a : Char}
    (h : List.dropWhile p l = a :: r) : p a = false := by
  induction l with
  | nil => simp at h
  | cons b l ih =>
    cases hb : p b with
    | true =>
      rw [List.dropWhile_cons_of_pos hb] at h
      exact ih h
    | false =>
      rw [List.dropWhile_cons_of_neg (by simp [hb])] at h
      injection h with h1 h2
      rw [← h1]
      exact hb

theorem dropWhile_trimChars (l : List Char) :
    List.dropWhile pySpace (trimChars l) = trimChars l := by
  rcases h : trimChars l with _ | ⟨a, u⟩
  · rfl
  · have hpre : trimChars l <+: List.dropWhile pySpace l := by
      rw [trimChars_eq_rdrop]
      exact List.rdropWhile_prefix _ _
    rw [h] at hpre
    obtain ⟨t, ht⟩ := hpre
    have h0 : List.dropWhile pySpace l = a :: (u ++ t) := by
      rw [← ht]; simp
    have hd := List.dropWhile_idempotent pySpace l
    rw [h0] at hd
    have ha : pySpace a = false := false_of_dropWhile_eq_cons hd
    exact List.dropWhile_cons_of_neg (by simp [ha])

theorem trimChars_idem (l : List Char) : trimChars (trimChars l) = trimChars l := by
  have h1 : trimChars (trimChars l) =
      List.rdropWhile pySpace (List.dropWhile pySpace (trimChars l)) := trimChars_eq_rdrop _
  rw [h1, dropWhile_trimChars, trimChars_eq_rdrop l]
  exact List.rdropWhile_idempotent _ _

theorem pyStrip_idem (s : String) : pyStrip (pyStrip s) = pyStrip s := by
  show String.mk (trimChars (String.mk (trimChars s.data)).data) = _
  rw [data_mk, trimChars_idem]
  rfl

/-- A string unchanged by stripping and nonempty: the shape of every
editor and suburb name that `load_completed` produces. -/
def cleanName (s : String) : Prop := pyStrip s = s ∧ s ≠ ""

theorem validRow_iff {r : CsvRow} :
    validRow r = true ↔ rowEditor r ≠ "" ∧ rowSuburb r ≠ "" := by
  simp [validRow]

theorem cleanName_rowEditor {r : CsvRow} (h : validRow r = true) : cleanName (rowEditor r) :=
  ⟨pyStrip_idem _, (validRow_iff.mp h).1⟩

theorem cleanName_rowSuburb {r : CsvRow} (h : validRow r = true) : cleanName (rowSuburb r) :=
  ⟨pyStrip_idem _, (validRow_iff.mp h).2⟩

/-! ## Claim C1: the status operation of the Reconciler -/

theorem det_complete (m : CompletedMap) (s : String) (h : ∃ p ∈ m, s ∈ p.2) :
    ∃ e, determine_status m s = ("Complete", some e) ∧ ∃ subs, (e, subs) ∈ m ∧ s ∈ subs := by
  induction m with
  | nil => simp at h
  | cons p rest ih =>
    by_cases hs : s ∈ p.2
    · exact ⟨p.1, by simp [determine_status, hs], p.2, by simp, hs⟩
    · obtain ⟨q, hq, hsq⟩ := h
      rcases List.mem_cons.mp hq with h1 | h1
      · rw [h1] at hsq; exact absurd hsq hs
      · obtain ⟨e, he, subs, hsubs, hmem⟩ := ih ⟨q, h1, hsq⟩
        refine ⟨e, ?_, subs, List.mem_cons_of_mem _ hsubs, hmem⟩
        simpa [determine_status, hs] using he

theorem det_notstarted (m : CompletedMap) (s : String) (h : ¬ ∃ p ∈ m, s ∈ p.2) :
    determine_status m s = ("Not Started", none) := by
  induction m with
  | nil => rfl
  | cons p rest ih =>
    have hs : s ∉ p.2 := fun hmem => h ⟨p, by simp, hmem⟩
    have hrest : ¬ ∃ q ∈ rest, s ∈ q.2 := by
      rintro ⟨q, hq, hsq⟩
      exact h ⟨q, List.mem_cons_of_mem _ hq, hsq⟩
    simpa [determine_status, hs] using ih hrest

/-- C1.  `determine_status` returns Complete paired with an owning
editor exactly when some editor of the mapping has the suburb in its
completed set, and otherwise returns Not Started with no editor. -/
theorem c1_determine_status (m : CompletedMap) (s : String) :
    ((∃ p ∈ m, s ∈ p.2) ↔
      ∃ e, determine_status m s = ("Complete", some e) ∧ ∃ subs, (e, subs) ∈ m ∧ s ∈ subs)
    ∧ ((¬ ∃ p ∈ m, s ∈ p.2) ↔ determine_status m s = ("Not Started", none)) := by
  constructor
  · constructor
    · exact det_complete m s
    · rintro ⟨e, _, subs, hsubs, hmem⟩
      exact ⟨(e, subs), hsubs, hmem⟩
  · constructor
    · exact det_notstarted m s
    · intro hns hex
      obtain ⟨e, he, _⟩ := det_complete m s hex
      rw [hns] at he
      simp at he

/-- C1 witness: the status characterization at a one-entry mapping. -/
theorem c1_witness :
    ((∃ p ∈ ([("A", ["X"])] : CompletedMap), "X" ∈ p.2) ↔
      ∃ e, determine_status [("A", ["X"])] "X" = ("Complete", some e) ∧
        ∃ subs, (e, subs) ∈ ([("A", ["X"])] : CompletedMap) ∧ "X" ∈ subs)
    ∧ ((¬ ∃ p ∈ ([("A", ["X"])] : CompletedMap), "X" ∈ p.2) ↔
        determine_status [("A", ["X"])] "X" = ("Not Started", none)) :=
  c1_determine_status [("A", ["X"])] "X"

/-! ## Claim C8: loading, missing files and malformed rows -/

theorem buildCompleted_append (xs ys : List CsvRow) (m : CompletedMap) :
    buildCompleted (xs ++ ys) m = buildCompleted ys (buildCompleted xs m) := by
  induction xs generalizing m with
  | nil => rfl
  | cons r rs ih => simp [buildCompleted, ih]

/-- C8 counterexample.  A row whose Suburb field is missing (pandas
`NaN`) is not skipped by `load_completed`: `str(nan)` is the truthy
string `"nan"`, so the row survives the guard and contributes the
suburb `"nan"`, where the claim predicts the empty mapping. -/
theorem c8_counterexample :
    load_completed (some [(some "A", none)]) = [("A", ["nan"])] ∧
    load_completed (some [(some "A", none)]) ≠ [] := by
  constructor
  · decide
  · decide

/-- C8 amended.  `load_completed` returns the empty mapping when no
backing file exists, and skips exactly the rows one of whose fields
strips to the empty string; a row with a genuinely missing (`NaN`)
field is instead kept, the field reading as the string `"nan"`. -/
theorem c8_amended :
    load_completed none = []
    ∧ (∀ rows1 rows2 r, validRow r = false →
        load_completed (some (rows1 ++ r :: rows2)) = load_completed (some (rows1 ++ rows2)))
    ∧ (∀ r : CsvRow, validRow r = false ↔
        (pyStrip (pyStr r.1) = "" ∨ pyStrip (pyStr r.2) = "")) := by
  refine ⟨rfl, ?_, ?_⟩
  · intro rows1 rows2 r h
    show buildCompleted _ [] = buildCompleted _ []
    rw [show rows1 ++ r :: rows2 = rows1 ++ [r] ++ rows2 by simp,
      buildCompleted_append, buildCompleted_append, buildCompleted_append]
    simp [buildCompleted, h]
  · intro r
    have h1 : (validRow r = false) ↔ ¬ (validRow r = true) := by simp
    rw [h1, validRow_iff]
    unfold rowEditor rowSuburb
    tauto

/-- C8 witness: the skip clause applied at a whitespace-only editor
field, and the criterion evaluated there. -/
theorem c8_witness :
    load_completed (some [(some " ", some "X"), (some "A", some "Y")]) =
      load_completed (some [(some "A", some "Y")])
    ∧ validRow ((some " ", some "X") : CsvRow) = false := by
  constructor
  · exact (c8_amended.2.1 [] [(some "A", some "Y")] (some " ", some "X") (by decide))
  · exact (c8_amended.2.2 (some " ", some "X")).mpr (by left; decide)

/-! ## The association-map machinery behind the completion store -/

/-- The keys of a completion mapping, in insertion order. -/
def keys (m : CompletedMap) : List String := m.map Prod.fst

theorem keys_mem_iff {m : CompletedMap} {e : String} :
    e ∈ keys m ↔ ∃ subs, (e, subs) ∈ m := by
  constructor
  · intro h
    obtain ⟨p, hp, hpe⟩ := List.mem_map.mp h
    subst hpe
    exact ⟨p.2, hp⟩
  · rintro ⟨subs, h⟩
    exact List.mem_map.mpr ⟨(e, subs), h, rfl⟩

theorem any_key_iff {m : CompletedMap} {ed : String} :
    m.any (fun p => p.1 == ed) = true ↔ ed ∈ keys m := by
  rw [List.any_eq_true]
  constructor
  · rintro ⟨p, hp, hpe⟩
    exact List.mem_map.mpr ⟨p, hp, by simpa using hpe⟩
  · intro h
    obtain ⟨p, hp, hpe⟩ := List.mem_map.mp h
    exact ⟨p, hp, by simp [hpe]⟩

theorem addCompleted_notin {m : CompletedMap} {ed s : String} (h : ed ∉ keys m) :
    addCompleted m ed s = m ++ [(ed, [s])] := by
  rw [addCompleted, if_neg (fun hc => h (any_key_iff.mp hc))]

theorem map_key_fixed {acc : CompletedMap} {ed : String}
    (f : String × List String → List String) (h : ed ∉ keys acc) :
    acc.map (fun p => if p.1 == ed then (p.1, f p) else p) = acc := by
  have h1 : ∀ p ∈ acc, (if p.1 == ed then (p.1, f p) else p) = p := by
    intro p hp
    have : p.1 ≠ ed := fun he => h (List.mem_map.mpr ⟨p, hp, he⟩)
    simp [this]
  rw [List.map_congr_left h1, List.map_id']

theorem addCompleted_append {acc : CompletedMap} {ed : String} {ts : List String} {s : String}
    (h : ed ∉ keys acc) :
    addCompleted (acc ++ [(ed, ts)]) ed s =
      acc ++ [(ed, if s ∈ ts then ts else ts ++ [s])] := by
  have hc : (acc ++ [(ed, ts)]).any (fun p => p.1 == ed) = true := by simp
  rw [addCompleted, if_pos hc, List.map_append, map_key_fixed _ h]
  simp

theorem keys_addCompleted (m : CompletedMap) (ed s : String) :
    keys (addCompleted m ed s) = if ed ∈ keys m then keys m else keys m ++ [ed] := by
  by_cases h : ed ∈ keys m
  · rw [if_pos h, addCompleted, if_pos (any_key_iff.mpr h)]
    unfold keys
    rw [List.map_map]
    refine List.map_congr_left ?_
    intro p _
    by_cases hp : p.1 = ed <;> simp [hp]
  · rw [if_neg h, addCompleted_notin h]
    simp [keys]

/-- The invariant every mapping built by `load_completed` enjoys:
unique keys, keys and suburbs stripped and nonempty, suburb lists
duplicate-free and nonempty. -/
def WFmap (m : CompletedMap) : Prop :=
  (keys m).Nodup ∧ ∀ p ∈ m, cleanName p.1 ∧ p.2.Nodup ∧ p.2 ≠ [] ∧ ∀ x ∈ p.2, cleanName x

theorem WFmap_nil : WFmap [] := ⟨List.nodup_nil, by simp⟩

theorem WFmap_addCompleted {m : CompletedMap} {ed s : String}
    (hm : WFmap m) (hed : cleanName ed) (hs : cleanName s) :
    WFmap (addCompleted m ed s) := by
  by_cases h : ed ∈ keys m
  · constructor
    · rw [keys_addCompleted, if_pos h]
      exact hm.1
    · intro p hp
      rw [addCompleted, if_pos (any_key_iff.mpr h)] at hp
      obtain ⟨q, hq, hfq⟩ := List.mem_map.mp hp
      obtain ⟨hq1, hq2, hq3, hq4⟩ := hm.2 q hq
      by_cases hqe : q.1 == ed
      · rw [if_pos hqe] at hfq
        rw [← hfq]
        refine ⟨hq1, ?_, ?_, ?_⟩
        · by_cases hmem : s ∈ q.2
          · simpa [hmem] using hq2
          · simp only [hmem, if_neg, ite_false]
            simp [List.nodup_append, hq2, hmem]
        · by_cases hmem : s ∈ q.2 <;> simp [hmem, hq3]
        · intro x hx
          by_cases hmem : s ∈ q.2
          · exact hq4 x (by simpa [hmem] using hx)
          · simp only [hmem, ite_false] at hx
            rcases List.mem_append.mp hx with h1 | h1
            · exact hq4 x h1
            · simp at h1
              rw [h1]
              exact hs
      · rw [if_neg hqe] at hfq
        rw [← hfq]
        exact ⟨hq1, hq2, hq3, hq4⟩
  · rw [addCompleted_notin h]
    constructor
    · have : keys (m ++ [(ed, [s])]) = keys m ++ [ed] := by simp [keys]
      rw [this]
      simp [List.nodup_append, hm.1, h]
    · intro p hp
      rcases List.mem_append.mp hp with h1 | h1
      · exact hm.2 p h1
      · simp at h1
        rw [h1]
        refine ⟨hed, by simp, by simp, ?_⟩
        intro x hx
        simp at hx
        rw [hx]
        exact hs

theorem WFmap_build {rows : List CsvRow} {m : CompletedMap} (hm : WFmap m) :
    WFmap (buildCompleted rows m) := by
  induction rows generalizing m with
  | nil => exact hm
  | cons r rs ih =>
    show WFmap (buildCompleted rs _)
    apply ih
    cases hv : validRow r
    · simpa [hv] using hm
    · simpa [hv] using WFmap_addCompleted hm (cleanName_rowEditor hv) (cleanName_rowSuburb hv)

theorem WFmap_load (f : CsvFile) : WFmap (load_completed f) := by
  cases f with
  | none => exact WFmap_nil
  | some rows => exact WFmap_build WFmap_nil

/-- Membership of a suburb in an editor's entry of a mapping. -/
def memM (m : CompletedMap) (e s : String) : Prop :=
  ∃ subs, (e, subs) ∈ m ∧ s ∈ subs

theorem memM_addCompleted {m : CompletedMap} {ed s e2 s2 : String} :
    memM (addCompleted m ed s) e2 s2 ↔ memM m e2 s2 ∨ (e2 = ed ∧ s2 = s) := by
  by_cases h : ed ∈ keys m
  · rw [addCompleted, if_pos (any_key_iff.mpr h)]
    constructor
    · rintro ⟨subs, hmem, hs2⟩
      obtain ⟨q, hq, hfq⟩ := List.mem_map.mp hmem
      by_cases hqe : q.1 == ed
      · rw [if_pos hqe] at hfq
        have he2 : e2 = q.1 := (congrArg Prod.fst hfq).symm
        have hsubs : subs = if s ∈ q.2 then q.2 else q.2 ++ [s] := (congrArg Prod.snd hfq).symm
        by_cases hmem2 : s ∈ q.2
        · rw [hsubs, if_pos hmem2] at hs2
          exact Or.inl ⟨q.2, by rw [he2]; exact (by rwa [show (q.1, q.2) = q from rfl]), hs2⟩
        · rw [hsubs, if_neg hmem2] at hs2
          rcases List.mem_append.mp hs2 with h1 | h1
          · exact Or.inl ⟨q.2, by rw [he2]; exact (by rwa [show (q.1, q.2) = q from rfl]), h1⟩
          · simp at h1
            exact Or.inr ⟨by rw [he2]; simpa using hqe, h1⟩
      · rw [if_neg hqe] at hfq
        exact Or.inl ⟨subs, hfq ▸ hq, hs2⟩
    · rintro (⟨subs, hmem, hs2⟩ | ⟨he, hs'⟩)
      · by_cases hqe : e2 = ed
        · refine ⟨if s ∈ subs then subs else subs ++ [s],
            List.mem_map.mpr ⟨(e2, subs), hmem, by simp [hqe]⟩, ?_⟩
          by_cases hmem2 : s ∈ subs <;> simp [hmem2, hs2]
        · exact ⟨subs, List.mem_map.mpr ⟨(e2, subs), hmem, by simp [hqe]⟩, hs2⟩
      · obtain ⟨subs0, hmem0⟩ := keys_mem_iff.mp h
        subst he hs'
        refine ⟨if s2 ∈ subs0 then subs0 else subs0 ++ [s2],
          List.mem_map.mpr ⟨(e2, subs0), hmem0, by simp⟩, ?_⟩
        by_cases hmem2 : s2 ∈ subs0 <;> simp [hmem2]
  · rw [addCompleted_notin h]
    constructor
    · rintro ⟨subs, hmem, hs2⟩
      rcases List.mem_append.mp hmem with h1 | h1
      · exact Or.inl ⟨subs, h1, hs2⟩
      · simp at h1
        rw [h1.2] at hs2
        simp at hs2
        exact Or.inr ⟨h1.1, hs2⟩
    · rintro (⟨subs, hmem, hs2⟩ | ⟨he, hs'⟩)
      · exact ⟨subs, List.mem_append_left _ hmem, hs2⟩
      · refine ⟨[s], ?_, ?_⟩
        · rw [he]
          exact List.mem_append_right _ (by simp)
        · rw [hs']
          simp

/-! ## Writing a mapping and reading it back -/

/-- What one stored suburb string reads back as: an empty string is
written as an empty field, reloaded as `NaN` and stringified to
`"nan"`; any other string is reloaded verbatim and stripped. -/
def cleanElem (s : String) : String := pyStrip (pyStr (writeCell s))

/-- One step of rebuilding an entry value on reload: drop the suburb
if it strips to empty, deduplicate, append otherwise. -/
def cleanStep (acc : List String) (s : String) : List String :=
  if cleanElem s = "" then acc
  else if cleanElem s ∈ acc then acc else acc ++ [cleanElem s]

/-- Rebuilding an entry value on reload, from a partial value. -/
def cleanValFrom (ts : List String) (V : List String) : List String :=
  V.foldl cleanStep ts

/-- What a stored entry value reads back as. -/
def cleanVal (V : List String) : List String := cleanValFrom [] V

/-- What a whole stored mapping (with clean, distinct keys) reads
back as: per-entry cleaned values, entries emptied by cleaning
dropped. -/
def cleanMap (m : CompletedMap) : CompletedMap :=
  (m.map (fun p => (p.1, cleanVal p.2))).filter (fun p => !p.2.isEmpty)

/-- The rows `save_completed` writes for one mapping entry. -/
def entryRows (p : String × List String) : List CsvRow :=
  p.2.map (fun s => (writeCell p.1, writeCell s))

theorem writeRows_nil : writeRows [] = [] := rfl

theorem writeRows_cons (p : String × List String) (m : CompletedMap) :
    writeRows (p :: m) = entryRows p ++ writeRows m := by
  simp [writeRows, entryRows]

theorem rowEditor_writeCell {k : String} (s : String) (hk : cleanName k) :
    rowEditor (writeCell k, writeCell s) = k := by
  unfold rowEditor writeCell
  rw [if_neg hk.2]
  exact hk.1

theorem rowSuburb_writeCell (k s : String) :
    rowSuburb (writeCell k, writeCell s) = cleanElem s := rfl

theorem validRow_writeCell {k : String} (s : String) (hk : cleanName k) :
    validRow (writeCell k, writeCell s) = !(cleanElem s == "") := by
  unfold validRow
  rw [rowEditor_writeCell s hk, rowSuburb_writeCell]
  simp [hk.2]

theorem cleanValFrom_ne_nil {ts : List String} (h : ts ≠ []) (V : List String) :
    cleanValFrom ts V ≠ [] := by
  induction V generalizing ts with
  | nil => exact h
  | cons s V ih =>
    show cleanValFrom (cleanStep ts s) V ≠ []
    apply ih
    by_cases h1 : cleanElem s = ""
    · simpa [cleanStep, h1] using h
    · by_cases h2 : cleanElem s ∈ ts
      · simpa [cleanStep, h1, h2] using h
      · simp [cleanStep, h1, h2]

theorem block_in {k : String} (hk : cleanName k) :
    ∀ (V : List String) (acc : CompletedMap) (ts : List String), k ∉ keys acc →
      buildCompleted (entryRows (k, V)) (acc ++ [(k, ts)]) = acc ++ [(k, cleanValFrom ts V)] := by
  intro V
  induction V with
  | nil => intro acc ts _; rfl
  | cons s V ih =>
    intro acc ts h
    show buildCompleted ((writeCell k, writeCell s) :: entryRows (k, V)) (acc ++ [(k, ts)]) =
      acc ++ [(k, cleanValFrom (cleanStep ts s) V)]
    by_cases h1 : cleanElem s = ""
    · have hv : validRow (writeCell k, writeCell s) = false := by
        rw [validRow_writeCell s hk]
        simp [h1]
      have hstep : cleanStep ts s = ts := by simp [cleanStep, h1]
      simp only [buildCompleted, hv, Bool.false_eq_true, if_false, hstep]
      exact ih acc ts h
    · have hv : validRow (writeCell k, writeCell s) = true := by
        rw [validRow_writeCell s hk]
        simp [h1]
      simp only [buildCompleted, hv, if_true, rowEditor_writeCell s hk, rowSuburb_writeCell]
      rw [addCompleted_append h]
      by_cases h2 : cleanElem s ∈ ts
      · have hstep : cleanStep ts s = ts := by simp [cleanStep, h1, h2]
        rw [if_pos h2, hstep]
        exact ih acc ts h
      · have hstep : cleanStep ts s = ts ++ [cleanElem s] := by simp [cleanStep, h1, h2]
        rw [if_neg h2, hstep]
        exact ih acc (ts ++ [cleanElem s]) h

theorem block_start {k : String} (hk : cleanName k) :
    ∀ (V : List String) (acc : CompletedMap), k ∉ keys acc →
      buildCompleted (entryRows (k, V)) acc =
        if cleanVal V = [] then acc else acc ++ [(k, cleanVal V)] := by
  intro V
  induction V with
  | nil => intro acc _; simp [entryRows, buildCompleted, cleanVal, cleanValFrom]
  | cons s V ih =>
    intro acc h
    show buildCompleted ((writeCell k, writeCell s) :: entryRows (k, V)) acc = _
    by_cases h1 : cleanElem s = ""
    · have hv : validRow (writeCell k, writeCell s) = false := by
        rw [validRow_writeCell s hk]
        simp [h1]
      have hcv : cleanVal (s :: V) = cleanVal V := by
        show cleanValFrom (cleanStep [] s) V = cleanValFrom [] V
        simp [cleanStep, h1]
      simp only [buildCompleted, hv, Bool.false_eq_true, if_false]
      rw [ih acc h, hcv]
    · have hv : validRow (writeCell k, writeCell s) = true := by
        rw [validRow_writeCell s hk]
        simp [h1]
      have hcv : cleanVal (s :: V) = cleanValFrom [cleanElem s] V := by
        show cleanValFrom (cleanStep [] s) V = _
        simp [cleanStep, h1]
      simp only [buildCompleted, hv, if_true, rowEditor_writeCell s hk, rowSuburb_writeCell]
      rw [addCompleted_notin h, block_in hk V acc [cleanElem s] h, hcv,
        if_neg (cleanValFrom_ne_nil (by simp) V)]

theorem cleanMap_cons_nil {p : String × List String} {m : CompletedMap}
    (h : cleanVal p.2 = []) : cleanMap (p :: m) = cleanMap m := by
  simp [cleanMap, h]

theorem cleanMap_cons {p : String × List String} {m : CompletedMap}
    (h : cleanVal p.2 ≠ []) : cleanMap (p :: m) = (p.1, cleanVal p.2) :: cleanMap m := by
  simp [cleanMap, h]

theorem buildWrite : ∀ (m acc : CompletedMap),
    (∀ k ∈ keys m, cleanName k) → (keys m).Nodup → (∀ k ∈ keys m, k ∉ keys acc) →
    buildCompleted (writeRows m) acc = acc ++ cleanMap m := by
  intro m
  induction m with
  | nil => intro acc _ _ _; simp [writeRows, buildCompleted, cleanMap]
  | cons p m ih =>
    intro acc hclean hnd hdisj
    have hk : cleanName p.1 := hclean p.1 (by simp [keys])
    have hknotacc : p.1 ∉ keys acc := hdisj p.1 (by simp [keys])
    have hpk : p.1 ∉ keys m := by
      have : (keys (p :: m)) = p.1 :: keys m := rfl
      have h2 := hnd
      rw [this] at h2
      exact (List.nodup_cons.mp h2).1
    have hndm : (keys m).Nodup := by
      have : (keys (p :: m)) = p.1 :: keys m := rfl
      have h2 := hnd
      rw [this] at h2
      exact (List.nodup_cons.mp h2).2
    have hcleanm : ∀ k ∈ keys m, cleanName k := fun k hkm =>
      hclean k (by simp [keys] at hkm ⊢; exact Or.inr hkm)
    rw [writeRows_cons, buildCompleted_append,
      block_start hk p.2 acc hknotacc]
    by_cases hcv : cleanVal p.2 = []
    · rw [if_pos hcv, cleanMap_cons_nil hcv]
      exact ih acc hcleanm hndm
        (fun k hkm => hdisj k (by simp [keys] at hkm ⊢; exact Or.inr hkm))
    · rw [if_neg hcv, cleanMap_cons hcv]
      rw [ih (acc ++ [(p.1, cleanVal p.2)]) hcleanm hndm ?_]
      · simp
      · intro k hkm
        have h1 : k ∉ keys acc := hdisj k (by simp [keys] at hkm ⊢; exact Or.inr hkm)
        have h2 : k ≠ p.1 := fun he => hpk (he ▸ hkm)
        intro hmem
        rw [show keys (acc ++ [(p.1, cleanVal p.2)]) = keys acc ++ [p.1] from by simp [keys]]
          at hmem
        rcases List.mem_append.mp hmem with hA | hB
        · exact h1 hA
        · simp at hB
          exact h2 hB

theorem load_writeRows {m : CompletedMap} (hclean : ∀ k ∈ keys m, cleanName k)
    (hnd : (keys m).Nodup) : load_completed (some (writeRows m)) = cleanMap m := by
  show buildCompleted (writeRows m) [] = cleanMap m
  rw [buildWrite m [] hclean hnd (by simp [keys]), List.nil_append]

/-! ## Lookup lemmas and identity of cleaning on well-formed data -/

theorem lookup_eq_none_of_notin {m : CompletedMap} {k : String} (h : k ∉ keys m) :
    List.lookup k m = none := by
  induction m with
  | nil => rfl
  | cons p m ih =>
    obtain ⟨a, b⟩ := p
    have h1 : k ≠ a ∧ k ∉ keys m := by
      constructor
      · intro he
        exact h (by simp [keys, he])
      · intro hm
        exact h (by simp [keys] at hm ⊢; exact Or.inr hm)
    have hb : (k == a) = false := by simp [h1.1]
    simp [List.lookup, hb, ih h1.2]

theorem lookup_cleanMap {m : CompletedMap} (hnd : (keys m).Nodup) (k : String) :
    List.lookup k (cleanMap m) =
      (List.lookup k m).bind
        (fun V => if cleanVal V = [] then none else some (cleanVal V)) := by
  induction m with
  | nil => rfl
  | cons p m ih =>
    obtain ⟨a, b⟩ := p
    have hnd2 : (keys m).Nodup := (List.nodup_cons.mp hnd).2
    have hna : a ∉ keys m := (List.nodup_cons.mp hnd).1
    by_cases hk : k = a
    · subst hk
      by_cases hcv : cleanVal b = []
      · rw [cleanMap_cons_nil hcv, ih hnd2, lookup_eq_none_of_notin hna]
        simp [List.lookup, hcv]
      · rw [cleanMap_cons hcv]
        simp [List.lookup, hcv]
    · have hb : (k == a) = false := by simp [hk]
      by_cases hcv : cleanVal b = []
      · rw [cleanMap_cons_nil hcv, ih hnd2]
        simp [List.lookup, hb]
      · rw [cleanMap_cons hcv]
        simp only [List.lookup, hb]
        exact ih hnd2

theorem cleanElem_of_clean {s : String} (h : cleanName s) : cleanElem s = s := by
  unfold cleanElem writeCell
  rw [if_neg h.2]
  exact h.1

theorem cleanValFrom_clean : ∀ (V ts : List String), (∀ x ∈ V, cleanName x) →
    (ts ++ V).Nodup → cleanValFrom ts V = ts ++ V := by
  intro V
  induction V with
  | nil => intro ts _ _; simp [cleanValFrom]
  | cons s V ih =>
    intro ts hc hnd
    show cleanValFrom (cleanStep ts s) V = _
    have hs := hc s (by simp)
    have h1 : cleanElem s = s := cleanElem_of_clean hs
    rw [List.nodup_append] at hnd
    have hsts : s ∉ ts := fun hmem => hnd.2.2 hmem (by simp)
    have hstep : cleanStep ts s = ts ++ [s] := by simp [cleanStep, h1, hs.2, hsts]
    rw [hstep, ih (ts ++ [s]) (fun x hx => hc x (by simp [hx])) ?_]
    · simp
    · have : ts ++ [s] ++ V = ts ++ s :: V := by simp
      rw [this, List.nodup_append]
      exact hnd

theorem cleanVal_of_clean {V : List String} (hc : ∀ x ∈ V, cleanName x) (hnd : V.Nodup) :
    cleanVal V = V := by
  simpa using cleanValFrom_clean V [] hc (by simpa)

theorem cleanMap_of_wf {m : CompletedMap} (h : WFmap m) : cleanMap m = m := by
  unfold cleanMap
  have h1 : m.map (fun p => (p.1, cleanVal p.2)) = m := by
    have : ∀ p ∈ m, (p.1, cleanVal p.2) = p := by
      intro p hp
      obtain ⟨_, hnd, _, hcl⟩ := h.2 p hp
      rw [cleanVal_of_clean hcl hnd]
    rw [List.map_congr_left this, List.map_id']
  rw [h1]
  apply List.filter_eq_self.mpr
  intro p hp
  obtain ⟨_, _, hne, _⟩ := h.2 p hp
  simpa using hne

theorem wf_keys_clean {m : CompletedMap} (h : WFmap m) : ∀ k ∈ keys m, cleanName k := by
  intro k hk
  obtain ⟨subs, hmem⟩ := keys_mem_iff.mp hk
  exact (h.2 (k, subs) hmem).1

theorem load_writeRows_wf {m : CompletedMap} (h : WFmap m) :
    load_completed (some (writeRows m)) = m := by
  rw [load_writeRows (wf_keys_clean h) h.1, cleanMap_of_wf h]

/-! ## Erasure and replacement of one editor's entry -/

/-- The mapping with every entry for one key removed. -/
def eraseKey (m : CompletedMap) (k : String) : CompletedMap :=
  m.filter (fun p => !(p.1 == k))

theorem notin_keys_eraseKey (m : CompletedMap) (k : String) : k ∉ keys (eraseKey m k) := by
  intro h
  obtain ⟨p, hp, hpk⟩ := List.mem_map.mp h
  have h2 := (List.mem_filter.mp hp).2
  simp [hpk] at h2

theorem WFmap_eraseKey {m : CompletedMap} (h : WFmap m) (k : String) :
    WFmap (eraseKey m k) := by
  constructor
  · exact List.Nodup.sublist (List.Sublist.map Prod.fst (List.filter_sublist m)) h.1
  · intro p hp
    exact h.2 p (List.mem_filter.mp hp).1

theorem writeRows_append (m1 m2 : CompletedMap) :
    writeRows (m1 ++ m2) = writeRows m1 ++ writeRows m2 := by
  simp [writeRows]

theorem writeRows_map_empty (ed : String) : ∀ m : CompletedMap,
    writeRows (m.map (fun p => if p.1 == ed then (p.1, ([] : List String)) else p)) =
      writeRows (eraseKey m ed) := by
  intro m
  induction m with
  | nil => rfl
  | cons p m ih =>
    obtain ⟨a, b⟩ := p
    by_cases ha : a = ed
    · subst ha
      have h1 : ((a, b).1 == a) = true := by simp
      have h2 : eraseKey ((a, b) :: m) a = eraseKey m a := by
        simp [eraseKey, List.filter_cons]
      rw [List.map_cons, h2, if_pos h1, writeRows_cons]
      simpa [entryRows] using ih
    · have h1 : ((a, b).1 == ed) = false := by simp [ha]
      have h2 : eraseKey ((a, b) :: m) ed = (a, b) :: eraseKey m ed := by
        simp [eraseKey, List.filter_cons, ha]
      rw [List.map_cons, h2, if_neg (by simp [ha]), writeRows_cons, writeRows_cons, ih]

theorem writeRows_setUpdate_nil (m : CompletedMap) (ed : String) :
    writeRows (setUpdate m ed []) = writeRows (eraseKey m ed) := by
  by_cases h : m.any (fun p => p.1 == ed) = true
  · rw [setUpdate, if_pos h]
    exact writeRows_map_empty ed m
  · rw [setUpdate, if_neg h, writeRows_append]
    have herase : eraseKey m ed = m := by
      apply List.filter_eq_self.mpr
      intro p hp
      have : p.1 ≠ ed := fun he => h (List.any_eq_true.mpr ⟨p, hp, by simp [he]⟩)
      simp [this]
    rw [herase]
    simp [writeRows, entryRows]

/-! ## Lemmas about `setUpdate` and `pySet` -/

theorem lookup_map_ite (ed : String) (subs : List String) (k : String) :
    ∀ m : CompletedMap,
    List.lookup k (m.map (fun p => if p.1 == ed then (p.1, subs) else p)) =
      if k = ed then (List.lookup k m).map (fun _ => subs) else List.lookup k m := by
  intro m
  induction m with
  | nil => by_cases h : k = ed <;> simp [h]
  | cons q m ih =>
    obtain ⟨a, b⟩ := q
    by_cases ha : a = ed
    · subst ha
      by_cases hk : k = a
      · subst hk
        simp [List.lookup_cons, ih]
      · have hb : (k == a) = false := by simp [hk]
        simp [List.lookup_cons, hb, hk]
        simpa [hk] using ih
    · by_cases hk : k = a
      · subst hk
        have hke : ¬ k = ed := ha
        simp [ha, List.lookup_cons, hke]
      · have hb : (k == a) = false := by simp [hk]
        simp [ha, List.lookup_cons, hb]
        simpa using ih

theorem lookup_setUpdate_self (m : CompletedMap) (ed : String) (subs : List String) :
    List.lookup ed (setUpdate m ed subs) = some subs := by
  by_cases h : m.any (fun p => p.1 == ed) = true
  · rw [setUpdate, if_pos h, lookup_map_ite, if_pos rfl]
    have hsome : (List.lookup ed m).isSome := by
      apply List.lookup_isSome_iff.mpr
      obtain ⟨p, hp, hpe⟩ := List.any_eq_true.mp h
      have : p.1 = ed := by simpa using hpe
      exact ⟨p, hp, by simp [this]⟩
    obtain ⟨v, hv⟩ := Option.isSome_iff_exists.mp hsome
    simp [hv]
  · rw [setUpdate, if_neg h, List.lookup_append]
    have h1 : List.lookup ed m = none :=
      lookup_eq_none_of_notin (fun hk => h (any_key_iff.mpr hk))
    simp [h1]

theorem lookup_setUpdate_other (m : CompletedMap) (ed : String) (subs : List String)
    {e2 : String} (h : e2 ≠ ed) :
    List.lookup e2 (setUpdate m ed subs) = List.lookup e2 m := by
  by_cases hc : m.any (fun p => p.1 == ed) = true
  · rw [setUpdate, if_pos hc, lookup_map_ite, if_neg h]
  · rw [setUpdate, if_neg hc, List.lookup_append]
    have hb : (e2 == ed) = false := by simp [h]
    have h1 : List.lookup e2 [(ed, subs)] = none := by
      simp [List.lookup_cons, hb]
    simp [h1]

theorem setUpdate_setUpdate (m : CompletedMap) (ed : String) (v1 v2 : List String) :
    setUpdate (setUpdate m ed v1) ed v2 = setUpdate m ed v2 := by
  by_cases h : m.any (fun p => p.1 == ed) = true
  · have h1 : setUpdate m ed v1 = m.map (fun p => if p.1 == ed then (p.1, v1) else p) := by
      rw [setUpdate, if_pos h]
    have hany2 : (m.map (fun p => if p.1 == ed then (p.1, v1) else p)).any
        (fun p => p.1 == ed) = true := by
      obtain ⟨p, hp, hpe⟩ := List.any_eq_true.mp h
      refine List.any_eq_true.mpr ⟨(p.1, v1), List.mem_map.mpr ⟨p, hp, by simp [hpe]⟩, hpe⟩
    rw [h1, setUpdate, if_pos hany2, setUpdate, if_pos h, List.map_map]
    refine List.map_congr_left ?_
    intro p _
    by_cases hp : p.1 = ed <;> simp [hp]
  · have h1 : setUpdate m ed v1 = m ++ [(ed, v1)] := by rw [setUpdate, if_neg h]
    have hany2 : (m ++ [(ed, v1)]).any (fun p => p.1 == ed) = true := by simp
    rw [h1, setUpdate, if_pos hany2, setUpdate, if_neg h, List.map_append,
      map_key_fixed _ (fun hk => h (any_key_iff.mpr hk))]
    simp

theorem WFmap_setUpdate {m : CompletedMap} {ed : String} {subs : List String}
    (hm : WFmap m) (hed : cleanName ed) (h1 : subs.Nodup) (h2 : subs ≠ [])
    (h3 : ∀ x ∈ subs, cleanName x) : WFmap (setUpdate m ed subs) := by
  by_cases h : m.any (fun p => p.1 == ed) = true
  · rw [setUpdate, if_pos h]
    constructor
    · have : keys (m.map (fun p => if p.1 == ed then (p.1, subs) else p)) = keys m := by
        unfold keys
        rw [List.map_map]
        refine List.map_congr_left ?_
        intro p _
        by_cases hp : p.1 = ed <;> simp [hp]
      rw [this]
      exact hm.1
    · intro p hp
      obtain ⟨q, hq, hfq⟩ := List.mem_map.mp hp
      by_cases hqe : q.1 == ed
      · rw [if_pos hqe] at hfq
        rw [← hfq]
        have hq1 : q.1 = ed := by simpa using hqe
        exact ⟨hq1 ▸ hed, h1, h2, h3⟩
      · rw [if_neg hqe] at hfq
        rw [← hfq]
        exact hm.2 q hq
  · rw [setUpdate, if_neg h]
    constructor
    · have : keys (m ++ [(ed, subs)]) = keys m ++ [ed] := by simp [keys]
      rw [this]
      have hnotin : ed ∉ keys m := fun hk => h (any_key_iff.mpr hk)
      simp [List.nodup_append, hm.1, hnotin]
    · intro p hp
      rcases List.mem_append.mp hp with hA | hB
      · exact hm.2 p hA
      · simp at hB
        rw [hB]
        exact ⟨hed, h1, h2, h3⟩

theorem mem_pySet_aux (l : List String) : ∀ (acc : List String) (x : String),
    (x ∈ l.foldl (fun acc s => if s ∈ acc then acc else acc ++ [s]) acc) ↔
      x ∈ acc ∨ x ∈ l := by
  induction l with
  | nil => intro acc x; simp
  | cons s l ih =>
    intro acc x
    show (x ∈ l.foldl _ (if s ∈ acc then acc else acc ++ [s])) ↔ _
    by_cases hs : s ∈ acc
    · rw [if_pos hs, ih]
      constructor
      · rintro (h | h)
        · exact Or.inl h
        · exact Or.inr (List.mem_cons_of_mem _ h)
      · rintro (h | h)
        · exact Or.inl h
        · rcases List.mem_cons.mp h with h1 | h1
          · exact Or.inl (h1 ▸ hs)
          · exact Or.inr h1
    · rw [if_neg hs, ih]
      constructor
      · rintro (h | h)
        · rcases List.mem_append.mp h with h1 | h1
          · exact Or.inl h1
          · simp at h1
            exact Or.inr (by simp [h1])
        · exact Or.inr (List.mem_cons_of_mem _ h)
      · rintro (h | h)
        · exact Or.inl (List.mem_append_left _ h)
        · rcases List.mem_cons.mp h with h1 | h1
          · exact Or.inl (List.mem_append_right _ (by simp [h1]))
          · exact Or.inr h1

theorem mem_pySet {l : List String} {x : String} : x ∈ pySet l ↔ x ∈ l := by
  rw [pySet, mem_pySet_aux l [] x]
  simp

theorem pySet_nodup_aux (l : List String) : ∀ acc : List String, acc.Nodup →
    (l.foldl (fun acc s => if s ∈ acc then acc else acc ++ [s]) acc).Nodup := by
  induction l with
  | nil => intro acc h; exact h
  | cons s l ih =>
    intro acc h
    show (l.foldl _ (if s ∈ acc then acc else acc ++ [s])).Nodup
    by_cases hs : s ∈ acc
    · rw [if_pos hs]
      exact ih acc h
    · rw [if_neg hs]
      exact ih _ (by simp [List.nodup_append, h, hs])

theorem pySet_nodup (l : List String) : (pySet l).Nodup :=
  pySet_nodup_aux l [] List.nodup_nil

theorem pySet_ne_nil {l : List String} (h : l ≠ []) : pySet l ≠ [] := by
  cases l with
  | nil => exact absurd rfl h
  | cons s t =>
    intro hc
    have : s ∈ pySet (s :: t) := mem_pySet.mpr (by simp)
    rw [hc] at this
    simp at this

theorem pySet_clean {l : List String} (h : ∀ x ∈ l, cleanName x) :
    ∀ x ∈ pySet l, cleanName x := fun x hx => h x (mem_pySet.mp hx)

theorem keys_setUpdate (m : CompletedMap) (ed : String) (subs : List String) :
    keys (setUpdate m ed subs) = if ed ∈ keys m then keys m else keys m ++ [ed] := by
  by_cases h : ed ∈ keys m
  · rw [if_pos h, setUpdate, if_pos (any_key_iff.mpr h)]
    unfold keys
    rw [List.map_map]
    refine List.map_congr_left ?_
    intro p _
    by_cases hp : p.1 = ed <;> simp [hp]
  · rw [if_neg h, setUpdate, if_neg (fun hc => h (any_key_iff.mp hc))]
    simp [keys]

/-! ## Claim C2: the save/load round trip -/

/-- C2 counterexample.  `save_completed` writes the editor name
verbatim but `load_completed` strips it, so for the editor name
`" A "` (padded with spaces) the reloaded mapping has no entry for
that editor at all, let alone one equal to the saved set. -/
theorem c2_counterexample :
    List.lookup " A " (load_completed (save_completed none " A " ["X"])) = none ∧
    (["X"] : List String) ≠ [] := by
  constructor
  · decide
  · decide

/-- C2 amended.  For an editor name that is stripped and nonempty,
and a nonempty selection of stripped nonempty suburb names, saving
and reloading yields an entry for that editor equal (as a set) to
the selection. -/
theorem c2_amended (f : CsvFile) (ed : String) (S : List String)
    (hed : cleanName ed) (hS : ∀ s ∈ S, cleanName s) (hne : S ≠ []) :
    ∃ subs, List.lookup ed (load_completed (save_completed f ed S)) = some subs ∧
      ∀ x, x ∈ subs ↔ x ∈ S := by
  have hm0 : WFmap (load_completed f) := WFmap_load f
  have hm1 : WFmap (setUpdate (load_completed f) ed (pySet S)) :=
    WFmap_setUpdate hm0 hed (pySet_nodup S) (pySet_ne_nil hne) (pySet_clean hS)
  have hload : load_completed (save_completed f ed S) =
      setUpdate (load_completed f) ed (pySet S) := load_writeRows_wf hm1
  refine ⟨pySet S, ?_, fun x => mem_pySet⟩
  rw [hload, lookup_setUpdate_self]

/-- C2 witness: a clean editor and suburb name round-trip. -/
theorem c2_witness :
    ∃ subs, List.lookup "A" (load_completed (save_completed none "A" ["UMBUMBULU"])) =
      some subs ∧ ∀ x, x ∈ subs ↔ x ∈ (["UMBUMBULU"] : List String) :=
  c2_amended none "A" ["UMBUMBULU"] ⟨by decide, by decide⟩
    (by
      intro s hs
      simp at hs
      rw [hs]
      exact ⟨by decide, by decide⟩)
    (by simp)

/-! ## Claim C3: the frame property of a save -/

/-- C3 counterexample.  Saving under the padded editor name `" A "`
changes the entry of the distinct editor `"A"`: the padded rows are
stripped on reload and merge into the other editor's set. -/
theorem c3_counterexample :
    List.lookup "A" (load_completed (some [(some "A", some "X")])) = some ["X"] ∧
    List.lookup "A"
        (load_completed (save_completed (some [(some "A", some "X")]) " A " ["Y"])) =
      some ["X", "Y"] ∧
    some (["X", "Y"] : List String) ≠ some ["X"] := by
  refine ⟨by decide, by decide, by decide⟩

/-- C3 amended.  When the saving editor's name is stripped and
nonempty, a save changes no other editor's entry in the reloaded
mapping (for arbitrary selections, including unclean ones). -/
theorem c3_amended (f : CsvFile) (ed : String) (S : List String) (hed : cleanName ed)
    (e2 : String) (h : e2 ≠ ed) :
    List.lookup e2 (load_completed (save_completed f ed S)) =
      List.lookup e2 (load_completed f) := by
  have hm0 : WFmap (load_completed f) := WFmap_load f
  have hkeys1 : keys (setUpdate (load_completed f) ed (pySet S)) =
      if ed ∈ keys (load_completed f) then keys (load_completed f)
      else keys (load_completed f) ++ [ed] := keys_setUpdate _ _ _
  have hclean1 : ∀ k ∈ keys (setUpdate (load_completed f) ed (pySet S)), cleanName k := by
    intro k hk
    rw [hkeys1] at hk
    by_cases hin : ed ∈ keys (load_completed f)
    · rw [if_pos hin] at hk
      exact wf_keys_clean hm0 k hk
    · rw [if_neg hin] at hk
      rcases List.mem_append.mp hk with hA | hB
      · exact wf_keys_clean hm0 k hA
      · simp at hB
        rw [hB]
        exact hed
  have hnd1 : (keys (setUpdate (load_completed f) ed (pySet S))).Nodup := by
    rw [hkeys1]
    by_cases hin : ed ∈ keys (load_completed f)
    · rw [if_pos hin]
      exact hm0.1
    · rw [if_neg hin]
      simp [List.nodup_append, hm0.1, hin]
  have hload : load_completed (save_completed f ed S) =
      cleanMap (setUpdate (load_completed f) ed (pySet S)) :=
    load_writeRows hclean1 hnd1
  rw [hload, lookup_cleanMap hnd1 e2, lookup_setUpdate_other _ _ _ h]
  cases hl : List.lookup e2 (load_completed f) with
  | none => rfl
  | some V =>
    have hmem : (e2, V) ∈ load_completed f := by
      obtain ⟨l1, l2, heq, _⟩ := List.lookup_eq_some_iff.mp hl
      rw [heq]
      simp
    obtain ⟨_, hnd2, hne2, hcl⟩ := hm0.2 _ hmem
    simp [cleanVal_of_clean hcl hnd2, hne2]

/-- C3 witness: saving for a clean editor leaves another editor's
entry unchanged. -/
theorem c3_witness :
    List.lookup "B"
        (load_completed (save_completed (some [(some "B", some "Y")]) "A" ["X"])) =
      List.lookup "B" (load_completed (some [(some "B", some "Y")])) :=
  c3_amended (some [(some "B", some "Y")]) "A" ["X"] ⟨by decide, by decide⟩ "B" (by decide)

/-! ## Claim C9: saving the empty selection removes the editor -/

/-- C9.  Saving the empty set for an editor and then loading yields
a mapping in which that editor is absent as a key: no rows are
written for an empty entry, so no key is recreated on reload.  This
holds for every prior file content and every editor name. -/
theorem c9_save_empty (f : CsvFile) (ed : String) :
    List.lookup ed (load_completed (save_completed f ed [])) = none := by
  have hm0 := WFmap_load f
  have h1 : save_completed f ed [] = some (writeRows (eraseKey (load_completed f) ed)) := by
    show some (writeRows (setUpdate (load_completed f) ed (pySet []))) = _
    rw [show pySet ([] : List String) = [] from rfl, writeRows_setUpdate_nil]
  rw [h1, load_writeRows_wf (WFmap_eraseKey hm0 ed)]
  exact lookup_eq_none_of_notin (notin_keys_eraseKey _ _)

/-! ## Claim C4: idempotence of repeated saves, and retraction -/

/-- C4 counterexample.  Two counterexamples to idempotence of the
persisted store under a repeated identical save: a padded editor
name `" A "` makes the second save append a second block of rows,
and a whitespace-only suburb selection makes the second save move
the editor's row to the end of the file. -/
theorem c4_counterexample :
    save_completed (save_completed none " A " ["X"]) " A " ["X"] ≠
      save_completed none " A " ["X"] ∧
    save_completed
        (save_completed (some [(some "A", some "X"), (some "B", some "Y"),
          (some "C", some "Z")]) "A" [" "]) "A" [" "] ≠
      save_completed (some [(some "A", some "X"), (some "B", some "Y"),
        (some "C", some "Z")]) "A" [" "] := by
  constructor
  · decide
  · decide

/-- C4 amended.  For a stripped nonempty editor name and stripped
nonempty suburb names, repeating an identical save leaves the
persisted file unchanged, and a suburb absent from the saved
selection is absent from the editor's entry on the next load. -/
theorem c4_amended (f : CsvFile) (ed : String) (S : List String) (x : String)
    (hed : cleanName ed) (hS : ∀ s ∈ S, cleanName s) :
    save_completed (save_completed f ed S) ed S = save_completed f ed S
    ∧ (x ∉ S → ∀ subs,
        List.lookup ed (load_completed (save_completed f ed S)) = some subs → x ∉ subs) := by
  have hm0 := WFmap_load f
  by_cases hne : S = []
  · subst hne
    have hP : pySet ([] : List String) = [] := rfl
    have h1 : save_completed f ed [] = some (writeRows (eraseKey (load_completed f) ed)) := by
      show some (writeRows (setUpdate (load_completed f) ed (pySet []))) = _
      rw [hP, writeRows_setUpdate_nil]
    have hwf : WFmap (eraseKey (load_completed f) ed) := WFmap_eraseKey hm0 ed
    have hload1 : load_completed (save_completed f ed []) =
        eraseKey (load_completed f) ed := by
      rw [h1]
      exact load_writeRows_wf hwf
    constructor
    · show some (writeRows (setUpdate (load_completed (save_completed f ed [])) ed
        (pySet []))) = _
      rw [hP, hload1, writeRows_setUpdate_nil]
      have h2 : eraseKey (eraseKey (load_completed f) ed) ed =
          eraseKey (load_completed f) ed := by
        apply List.filter_eq_self.mpr
        intro p hp
        exact (List.mem_filter.mp hp).2
      rw [h2, h1]
    · intro _ subs hsubs
      rw [hload1, lookup_eq_none_of_notin (notin_keys_eraseKey _ _)] at hsubs
      exact absurd hsubs (by simp)
  · have hm1 : WFmap (setUpdate (load_completed f) ed (pySet S)) :=
      WFmap_setUpdate hm0 hed (pySet_nodup S) (pySet_ne_nil hne) (pySet_clean hS)
    have hload1 : load_completed (save_completed f ed S) =
        setUpdate (load_completed f) ed (pySet S) := load_writeRows_wf hm1
    constructor
    · show some (writeRows (setUpdate (load_completed (save_completed f ed S)) ed
        (pySet S))) = _
      rw [hload1, setUpdate_setUpdate]
      rfl
    · intro hx subs hsubs
      rw [hload1, lookup_setUpdate_self] at hsubs
      have hsubs2 : pySet S = subs := Option.some.inj hsubs
      intro hxs
      rw [← hsubs2] at hxs
      exact hx (mem_pySet.mp hxs)

/-- C4 witness: a clean editor and suburb name, with a suburb never
selected staying absent. -/
theorem c4_witness :
    save_completed (save_completed none "A" ["X"]) "A" ["X"] = save_completed none "A" ["X"]
    ∧ ("Z" ∉ (["X"] : List String) → ∀ subs,
        List.lookup "A" (load_completed (save_completed none "A" ["X"])) = some subs →
          "Z" ∉ subs) :=
  c4_amended none "A" ["X"] "Z" ⟨by decide, by decide⟩
    (by
      intro s hs
      simp at hs
      rw [hs]
      exact ⟨by decide, by decide⟩)

/-! ## Claim C5: the percentage computations -/

/-- C5 counterexample.  The overall statistic divides by the roster
size with no guard: on an empty roster the division raises
(`none`), where the claim asserts it safely yields 0. -/
theorem c5_counterexample : overallMetric [] [] = none := rfl

/-- C5 amended.  The per-editor summary percentage is always
defined: completed/total*100 rounded to one decimal when the
editor's total is positive, and the literal 0 when it is 0.  The
overall statistic uses the same formula but is only defined for a
nonempty roster; it divides by zero on an empty one. -/
theorem c5_amended (records : List RosterRecord) (m : CompletedMap) :
    (∀ ed, summaryProg records m ed =
      some (if (assignedTo records ed).length = 0 then 0
        else pyRound1 (((completedCount records m ed : ℚ) /
          (assignedTo records ed).length) * 100)))
    ∧ (records ≠ [] →
        overallMetric records m =
          some (pyRound1 (((doneAll records m : ℚ) / records.length) * 100))) := by
  constructor
  · intro ed
    by_cases h : 0 < (assignedTo records ed).length
    · have hq : ((assignedTo records ed).length : ℚ) ≠ 0 := by
        exact_mod_cast Nat.pos_iff_ne_zero.mp h
      simp only [summaryProg, completedCount, if_pos h, pyDivQ, if_neg hq,
        Option.map_some']
      rw [if_neg (by omega)]
    · simp only [summaryProg, if_neg h]
      rw [if_pos (by omega)]
  · intro hne
    have hq : ((records.length : ℚ)) ≠ 0 := by
      have hl : records.length ≠ 0 := fun h0 => hne (List.length_eq_zero.mp h0)
      exact_mod_cast hl
    simp only [overallMetric, pyDivQ, if_neg hq, Option.map_some']

/-- C5 witness: the end-to-end roster of the spec with an empty
completion store has overall progress 0. -/
theorem c5_witness :
    overallMetric [("UMBUMBULU", some "A"), ("INWABI", some "B")] [] = some 0 := by
  have h := (c5_amended [("UMBUMBULU", some "A"), ("INWABI", some "B")] []).2 (by simp)
  rw [h]
  have hd : doneAll [("UMBUMBULU", some "A"), ("INWABI", some "B")] [] = 0 := by decide
  rw [hd]
  norm_num [pyRound1, roundHalfEven]

/-! ## Claims C6 and C7: the assignment-override layer -/

/-- The last override value a file holds for a key: the claims'
reading of dict-of-zip construction where a later duplicate row
replaces an earlier one. -/
def lastValue (rows : List OvRow) (k : Cell) : Option Cell :=
  ((rows.filter (fun r => r.1 == k)).getLast?).map (fun r => r.2)

theorem find?_map_ite (k v k2 : Cell) : ∀ d : List (Cell × Cell),
    (d.map (fun p => if p.1 == k then (p.1, v) else p)).find? (fun p => p.1 == k2) =
      if k2 = k then ((d.find? (fun p => p.1 == k2)).map (fun p => (p.1, v)))
      else d.find? (fun p => p.1 == k2) := by
  intro d
  induction d with
  | nil => by_cases h : k2 = k <;> simp [h]
  | cons q d ih =>
    rw [List.map_cons]
    by_cases hq : q.1 = k
    · have hcond : (q.1 == k) = true := by simp [hq]
      rw [if_pos hcond]
      by_cases hk : k2 = k
      · subst hk
        simp [List.find?_cons, hcond]
      · have h1 : (q.1 == k2) = false := by simp [hq, Ne.symm hk]
        simp only [List.find?_cons, h1]
        simpa [hk] using ih
    · have hcond : (q.1 == k) = false := by simp [hq]
      rw [if_neg (by simp [hcond])]
      by_cases h2 : q.1 = k2
      · have hk : ¬ k2 = k := fun he => hq (h2.trans he)
        have hp : (q.1 == k2) = true := by simp [h2]
        simp [List.find?_cons, hp, hk]
      · have hp : (q.1 == k2) = false := by simp [h2]
        simp only [List.find?_cons, hp]
        exact ih

theorem dictLookup_insert (k v k2 : Cell) (d : List (Cell × Cell)) :
    dictLookup (dictInsert d k v) k2 = if k2 = k then some v else dictLookup d k2 := by
  by_cases h : d.any (fun p => p.1 == k) = true
  · rw [dictInsert, if_pos h]
    unfold dictLookup
    rw [find?_map_ite]
    by_cases hk : k2 = k
    · rw [if_pos hk, if_pos hk]
      have hsome : (d.find? (fun p => p.1 == k2)).isSome := by
        apply List.find?_isSome.mpr
        obtain ⟨p, hp, hpk⟩ := List.any_eq_true.mp h
        exact ⟨p, hp, by rw [hk]; exact hpk⟩
      obtain ⟨w, hw⟩ := Option.isSome_iff_exists.mp hsome
      simp [hw]
    · rw [if_neg hk, if_neg hk]
  · rw [dictInsert, if_neg h]
    unfold dictLookup
    rw [List.find?_append]
    by_cases hk : k2 = k
    · subst hk
      have h1 : d.find? (fun p => p.1 == k2) = none := by
        apply List.find?_eq_none.mpr
        intro p hp hc
        exact h (List.any_eq_true.mpr ⟨p, hp, hc⟩)
      simp [h1]
    · have h2 : ([(k, v)].find? (fun p => p.1 == k2)) = none := by
        simp [Ne.symm hk]
      simp [h2, hk]

theorem dictOfZip_foldl (k : Cell) : ∀ (rows : List OvRow) (d : List (Cell × Cell)),
    dictLookup (rows.foldl (fun d r => dictInsert d r.1 r.2) d) k =
      (lastValue rows k).or (dictLookup d k) := by
  intro rows
  induction rows with
  | nil => intro d; simp [lastValue]
  | cons r rest ih =>
    intro d
    show dictLookup (rest.foldl _ (dictInsert d r.1 r.2)) k = _
    rw [ih (dictInsert d r.1 r.2), dictLookup_insert]
    have hlv : lastValue (r :: rest) k =
        (lastValue rest k).or (if k = r.1 then some r.2 else none) := by
      unfold lastValue
      by_cases hr : r.1 = k
      · rw [List.filter_cons, if_pos (by simp [hr]),
          show r :: List.filter (fun r => r.1 == k) rest =
            [r] ++ List.filter (fun r => r.1 == k) rest from rfl,
          List.getLast?_append, if_pos hr.symm]
        rcases hlast : (List.filter (fun r => r.1 == k) rest).getLast? with _ | w
        · rw [hlast]
          rfl
        · rw [hlast]
          rfl
      · rw [List.filter_cons, if_neg (by simp [hr]), if_neg (fun he => hr he.symm)]
        simp
    rw [hlv, Option.or_assoc]
    congr 1
    by_cases hk : k = r.1 <;> simp [hk]

theorem dictLookup_lastValue (rows : List OvRow) (k : Cell) :
    dictLookup (dictOfZip rows) k = lastValue rows k := by
  rw [dictOfZip, dictOfZip_foldl]
  simp [dictLookup]

/-- C6.  Applying overrides is a pointwise, total transform: the
output roster has the same length; a record whose suburb has a
(latest) override with a present value takes that value as its
assigned editor; a record whose suburb has no override row keeps
its original assigned editor, in particular a missing original
stays absent with no error; an override row whose value is itself
missing also falls back to the original (`fillna`). -/
theorem c6_applyOverrides (records : List RosterRecord) (rows : List OvRow) :
    (applyOverrides records rows).length = records.length
    ∧ ∀ i r, records.get? i = some r →
        ((∀ v, lastValue rows (some r.1) = some (some v) →
            (applyOverrides records rows).get? i = some (r.1, some v))
          ∧ (lastValue rows (some r.1) = none →
            (applyOverrides records rows).get? i = some r)
          ∧ (lastValue rows (some r.1) = some none →
            (applyOverrides records rows).get? i = some r)) := by
  constructor
  · simp [applyOverrides]
  · intro i r hr
    have hmap : (applyOverrides records rows).get? i =
        some (match dictLookup (dictOfZip rows) (some r.1) with
          | some (some v) => (r.1, some v)
          | some none => r
          | none => r) := by
      simp only [applyOverrides]
      rw [List.get?_eq_getElem?, List.getElem?_map, ← List.get?_eq_getElem?, hr,
        Option.map_some']
    refine ⟨?_, ?_, ?_⟩
    · intro v hv
      rw [hmap, dictLookup_lastValue, hv]
    · intro hv
      rw [hmap, dictLookup_lastValue, hv]
    · intro hv
      rw [hmap, dictLookup_lastValue, hv]

/-- C6 witness: a record with a missing original assignment stays
absent with no override, and takes the override's value when one
exists. -/
theorem c6_witness :
    (applyOverrides [("S", (none : Cell))] []).get? 0 = some ("S", none)
    ∧ (applyOverrides [("S", (none : Cell))] [(some "S", some "B")]).get? 0 =
        some ("S", some "B") := by
  constructor
  · exact ((c6_applyOverrides [("S", none)] []).2 0 ("S", none) rfl).2.1 rfl
  · exact ((c6_applyOverrides [("S", none)] [(some "S", some "B")]).2 0
      ("S", none) rfl).1 "B" rfl

theorem filter_map_reassign (sub owner : String) : ∀ rows : List OvRow,
    (rows.map (fun r => if r.1 == some sub then (r.1, some owner) else r)).filter
        (fun r => r.1 == some sub) =
      (rows.filter (fun r => r.1 == some sub)).map (fun r => (r.1, some owner)) := by
  intro rows
  induction rows with
  | nil => rfl
  | cons q rest ih =>
    rw [List.map_cons]
    by_cases hq : q.1 = some sub
    · have hc : (q.1 == some sub) = true := by simp [hq]
      rw [if_pos hc, List.filter_cons, List.filter_cons,
        if_pos (show ((q.1, some owner).1 == some sub) = true from hc),
        if_pos hc, List.map_cons, ih]
    · have hc : (q.1 == some sub) = false := by simp [hq]
      rw [if_neg (by simp [hc]), List.filter_cons, List.filter_cons,
        if_neg (by simp [hc]), if_neg (by simp [hc]), ih]

theorem lastValue_reassign (rows : List OvRow) (sub owner : String) :
    lastValue (reassign rows sub owner) (some sub) = some (some owner) := by
  unfold reassign
  by_cases h : rows.any (fun r => r.1 == some sub) = true
  · rw [if_pos h]
    unfold lastValue
    rw [filter_map_reassign, List.getLast?_map]
    obtain ⟨q, hq, hpq⟩ := List.any_eq_true.mp h
    have hmem : q ∈ rows.filter (fun r => r.1 == some sub) := List.mem_filter.mpr ⟨hq, hpq⟩
    rcases hlast : (rows.filter (fun r => r.1 == some sub)).getLast? with _ | w
    · rw [List.getLast?_eq_none_iff] at hlast
      rw [hlast] at hmem
      simp at hmem
    · rw [hlast]
      rfl
  · rw [if_neg h]
    unfold lastValue
    rw [List.filter_append]
    have h1 : rows.filter (fun r => r.1 == some sub) = [] := by
      apply List.filter_eq_nil_iff.mpr
      intro q hq hc
      exact h (List.any_eq_true.mpr ⟨q, hq, hc⟩)
    rw [h1]
    simp

theorem any_reassign (rows : List OvRow) (sub owner : String) :
    (reassign rows sub owner).any (fun r => r.1 == some sub) = true := by
  unfold reassign
  by_cases h : rows.any (fun r => r.1 == some sub) = true
  · rw [if_pos h]
    obtain ⟨q, hq, hpq⟩ := List.any_eq_true.mp h
    exact List.any_eq_true.mpr
      ⟨(q.1, some owner), List.mem_map.mpr ⟨q, hq, by simp [hpq]⟩, hpq⟩
  · rw [if_neg h]
    simp

theorem applyOverrides_reassign (rows : List OvRow) (sub owner : String) (orig : Cell) :
    applyOverrides [(sub, orig)] (reassign rows sub owner) = [(sub, some owner)] := by
  simp only [applyOverrides, List.map]
  rw [dictLookup_lastValue, lastValue_reassign]

/-- C7.  After a reassignment, applying overrides gives the suburb
the new editor regardless of the roster's original value; a second
reassignment of the same suburb rewrites rows in place, never
growing the file, and wins when overrides are applied. -/
theorem c7_reassign (rows : List OvRow) (sub B C : String) (orig : Cell) :
    applyOverrides [(sub, orig)] (reassign rows sub B) = [(sub, some B)]
    ∧ (reassign (reassign rows sub B) sub C).length = (reassign rows sub B).length
    ∧ applyOverrides [(sub, orig)] (reassign (reassign rows sub B) sub C) =
        [(sub, some C)] := by
  refine ⟨applyOverrides_reassign rows sub B orig, ?_, applyOverrides_reassign _ sub C orig⟩
  rw [show reassign (reassign rows sub B) sub C =
      (reassign rows sub B).map
        (fun r => if r.1 == some sub then (r.1, some C) else r) from by
    rw [reassign, if_pos (any_reassign rows sub B)]]
  simp

/-! ## Claim C10: the tie-break policy of `determine_status` -/

theorem keys_build : ∀ (rows : List CsvRow) (m : CompletedMap),
    keys (buildCompleted rows m) =
      rows.foldl (fun acc r =>
        if validRow r && !(acc.contains (rowEditor r)) then acc ++ [rowEditor r] else acc)
        (keys m) := by
  intro rows
  induction rows with
  | nil => intro m; rfl
  | cons r rs ih =>
    intro m
    rw [List.foldl_cons]
    show keys (buildCompleted rs
      (if validRow r then addCompleted m (rowEditor r) (rowSuburb r) else m)) = _
    cases hv : validRow r with
    | false =>
      rw [if_neg (by simp), ih m]
      simp
    | true =>
      rw [if_pos rfl, ih]
      congr 1
      rw [keys_addCompleted]
      by_cases hmem : rowEditor r ∈ keys m
      · rw [if_pos hmem]
        have hc : (keys m).contains (rowEditor r) = true := by
          simp [List.contains, List.elem_eq_mem, hmem]
        simp [hc, hmem]
      · rw [if_neg hmem]
        have hc : (keys m).contains (rowEditor r) = false := by
          simp [List.contains, List.elem_eq_mem, hmem]
        simp [hc, hmem]

theorem memM_nil (e s : String) : ¬ memM [] e s := by
  rintro ⟨subs, hmem, _⟩
  simp at hmem

theorem memM_build : ∀ (rows : List CsvRow) (m : CompletedMap) (e s : String),
    memM (buildCompleted rows m) e s ↔
      memM m e s ∨ ∃ r ∈ rows, validRow r = true ∧ rowEditor r = e ∧ rowSuburb r = s := by
  intro rows
  induction rows with
  | nil =>
    intro m e s
    simp [buildCompleted]
  | cons r rs ih =>
    intro m e s
    show memM (buildCompleted rs
      (if validRow r then addCompleted m (rowEditor r) (rowSuburb r) else m)) e s ↔ _
    cases hv : validRow r with
    | false =>
      rw [if_neg (by simp), ih]
      constructor
      · rintro (h | h)
        · exact Or.inl h
        · exact Or.inr (by
            obtain ⟨q, hq, hprop⟩ := h
            exact ⟨q, List.mem_cons_of_mem _ hq, hprop⟩)
      · rintro (h | ⟨q, hq, hprop⟩)
        · exact Or.inl h
        · rcases List.mem_cons.mp hq with h1 | h1
          · rw [h1] at hprop
            rw [hprop.1] at hv
            simp at hv
          · exact Or.inr ⟨q, h1, hprop⟩
    | true =>
      rw [if_pos rfl, ih, memM_addCompleted]
      constructor
      · rintro ((h | h) | h)
        · exact Or.inl h
        · exact Or.inr ⟨r, by simp, hv, h.1.symm, h.2.symm⟩
        · obtain ⟨q, hq, hprop⟩ := h
          exact Or.inr ⟨q, List.mem_cons_of_mem _ hq, hprop⟩
      · rintro (h | ⟨q, hq, hprop⟩)
        · exact Or.inl (Or.inl h)
        · rcases List.mem_cons.mp hq with h1 | h1
          · rw [h1] at hprop
            exact Or.inl (Or.inr ⟨hprop.2.1.symm, hprop.2.2.symm⟩)
          · exact Or.inr ⟨q, h1, hprop⟩

theorem det_find (m : CompletedMap) (s : String) :
    determine_status m s =
      match m.find? (fun p => decide (s ∈ p.2)) with
      | some p => ("Complete", some p.1)
      | none => ("Not Started", none) := by
  induction m with
  | nil => rfl
  | cons p rest ih =>
    by_cases hs : s ∈ p.2
    · simp [determine_status, List.find?_cons, hs]
    · simp [determine_status, List.find?_cons, hs, ih]

theorem entry_unique {m : CompletedMap} (hnd : (keys m).Nodup) {e : String}
    {v1 v2 : List String} (h1 : (e, v1) ∈ m) (h2 : (e, v2) ∈ m) : v1 = v2 := by
  induction m with
  | nil => simp at h1
  | cons p rest ih =>
    have hndr : (keys rest).Nodup := (List.nodup_cons.mp hnd).2
    have hnh : p.1 ∉ keys rest := (List.nodup_cons.mp hnd).1
    rcases List.mem_cons.mp h1 with hA | hA <;> rcases List.mem_cons.mp h2 with hB | hB
    · rw [← hA] at hB
      exact (congrArg Prod.snd hB).symm
    · exfalso
      apply hnh
      rw [← hA]
      exact keys_mem_iff.mpr ⟨v2, hB⟩
    · exfalso
      apply hnh
      rw [← hB]
      exact keys_mem_iff.mpr ⟨v1, hA⟩
    · exact ih hndr hA hB

theorem find?_congr {α : Type} (p q : α → Bool) : ∀ l : List α,
    (∀ x ∈ l, p x = q x) → l.find? p = l.find? q := by
  intro l
  induction l with
  | nil => intro _; rfl
  | cons a l ih =>
    intro h
    rw [List.find?_cons, List.find?_cons, h a (by simp), ih (fun x hx => h x (by simp [hx]))]

theorem completesIn_iff {rows : List CsvRow} {e s : String} :
    completesIn rows e s = true ↔
      ∃ r ∈ rows, validRow r = true ∧ rowEditor r = e ∧ rowSuburb r = s := by
  simp [completesIn, List.any_eq_true, and_assoc]

/-- C10.  With a fixed file content, `determine_status` composed
with `load_completed` is the function sending a suburb to Complete
with the editor whose first valid row appears earliest in the file
among the editors having a valid row completing that suburb, and to
Not Started with no editor when no valid row completes it.  In
particular the result is deterministic in the file content. -/
theorem c10_tiebreak (rows : List CsvRow) (s : String) :
    determine_status (load_completed (some rows)) s =
      match fileOwner rows s with
      | some e => ("Complete", some e)
      | none => ("Not Started", none) := by
  have hnd : (keys (load_completed (some rows))).Nodup := (WFmap_load (some rows)).1
  rw [det_find]
  have hkeys : keys (load_completed (some rows)) = editorsByFirstRow rows := keys_build rows []
  have hfo : fileOwner rows s =
      ((load_completed (some rows)).find? (fun p => completesIn rows p.1 s)).map Prod.fst := by
    unfold fileOwner
    rw [← hkeys]
    unfold keys
    rw [List.find?_map]
    rfl
  have hcong : (load_completed (some rows)).find? (fun p => decide (s ∈ p.2)) =
      (load_completed (some rows)).find? (fun p => completesIn rows p.1 s) := by
    apply find?_congr
    intro p hp
    have hiff : (s ∈ p.2) ↔ completesIn rows p.1 s = true := by
      rw [completesIn_iff]
      constructor
      · intro hs
        have hmm : memM (load_completed (some rows)) p.1 s := ⟨p.2, by simpa using hp, hs⟩
        rcases (memM_build rows [] p.1 s).mp hmm with hA | hB
        · exact absurd hA (memM_nil _ _)
        · exact hB
      · intro hex
        have hmm : memM (load_completed (some rows)) p.1 s :=
          (memM_build rows [] p.1 s).mpr (Or.inr hex)
        obtain ⟨subs, hmem, hs⟩ := hmm
        exact (entry_unique hnd hmem (show (p.1, p.2) ∈ _ from by simpa using hp)) ▸ hs
    cases hb : completesIn rows p.1 s
    · rw [hb] at hiff
      simp only [Bool.false_eq_true, iff_false] at hiff
      simp [hiff]
    · rw [hb] at hiff
      simp only [iff_true] at hiff
      simp [hiff]
  rw [hcong, hfo]
  rcases h : (load_completed (some rows)).find? (fun p => completesIn rows p.1 s) with _ | p
  · rw [h]
    rfl
  · rw [h]
    rfl

end RoadsProgress
